import Mathlib

/-!
# Verification of the transactional file-storage engine

Shallow embedding of `AsyncFileSession` (src/backend/src/services/file_storage.py,
with the near-identical variant in src/backend/app/core/localstorage.py) and of the
Unit-of-Work coordinator `get_file_holder_service`
(src/_backend/app/core/dependencies.py).

The storage root is modelled as an association list from file name to byte
content (`Dir`); all paths are taken relative to the storage root, so
`os.path.join(storage_path, name)` is modelled by `name` itself.  The
in-memory pending buffer (a Python `dict`, which preserves insertion order)
is modelled by an association list with the same key-update semantics.
I/O failure is modelled by a fault oracle (`Faults`) saying, per path,
whether a write / remove / rename at that path succeeds; the fault-free
semantics is the oracle `allOk`.
-/

/-- Byte content of a file (one `Nat` per byte; the engine treats content
as an opaque byte sequence, so no range constraint is needed). -/
abbrev Bytes : Type := List Nat

/-- The storage root directory: file name ↦ file content.  Real directories
have unique names; `writeD`/`removeD` below preserve that reading. -/
abbrev Dir : Type := List (String × Bytes)

/-- Content stored under name `k`, if any (first match). -/
def lookupD : Dir → String → Option Bytes
  | [], _ => none
  | e :: rest, k => if e.1 = k then some e.2 else lookupD rest k

/-- `os.remove`: drop the entry named `k`. -/
def removeD : Dir → String → Dir
  | [], _ => []
  | e :: rest, k => if e.1 = k then removeD rest k else e :: removeD rest k

/-- `open(path, "wb").write(content)`: create or overwrite the file named `k`. -/
def writeD (d : Dir) (k : String) (v : Bytes) : Dir :=
  (k, v) :: removeD d k

/-- `os.rename(src, dst)`: move the content stored at `src` to `dst`
(no-op when `src` is absent; the code only calls it guarded by an
existence check). -/
def renameD (d : Dir) (src dst : String) : Dir :=
  match lookupD d src with
  | some v => writeD (removeD d src) dst v
  | none => d

/-- `os.path.exists`. -/
def existsD (d : Dir) (k : String) : Bool :=
  (lookupD d k).isSome

/-- `os.listdir(storage_path)`. -/
def listdir (d : Dir) : List String :=
  d.map Prod.fst

/-- Python `f.startswith(p)`. -/
def startsW (f p : String) : Bool :=
  p.data.isPrefixOf f.data

/-- Error taxonomy of the engine (file_storage.py raises `FileWriteError`
from commit/rollback/flush, `FileNotFoundError` from `get`, and
`LocalStorageUnavailableError` from the listing helpers). -/
inductive StorageErr where
  | fileWrite
  | fileNotFound
  | unavailable
  deriving DecidableEq, Repr

/-- Fault oracle: which I/O operations succeed.  `writeOk p` — opening `p`
for writing and writing the bytes succeeds; `removeOk p` — `os.remove(p)`
succeeds; `renameOk p` — `os.rename(p, ·)` succeeds. -/
structure Faults where
  writeOk : String → Bool
  removeOk : String → Bool
  renameOk : String → Bool

/-- The fault-free oracle: every I/O operation succeeds. -/
def allOk : Faults :=
  { writeOk := fun _ => true, removeOk := fun _ => true, renameOk := fun _ => true }

/-- Python `dict` update `buf[k] = v`: replace in place if the key is
present (keeping its position), otherwise append at the end (insertion
order is what `commit` iterates in). -/
def dictUpsert (l : List (String × Bytes)) (k : String) (v : Bytes) :
    List (String × Bytes) :=
  if k ∈ l.map Prod.fst then
    l.map (fun e => if e.1 = k then (k, v) else e)
  else
    l ++ [(k, v)]

/-- The file-storage session: staging prefix (`pending_prefix`, by default
`"pending_"`) and the in-memory pending buffer (`self._pending`).
The storage path is left implicit: all names are relative to the root. -/
structure AsyncFileSession where
  pendingPfx : String
  pending : List (String × Bytes)

namespace AsyncFileSession

/-- `add`: store the entry in the in-memory buffer (no disk I/O). -/
def add (s : AsyncFileSession) (fileBytes : Bytes) (fileName : String) :
    AsyncFileSession :=
  { s with pending := dictUpsert s.pending fileName fileBytes }

/-- `flush`: write every buffered entry to its staging file
`pending_prefix + name`.  The buffer itself is not touched by the source
method, hence the session component of the result is the input session. -/
def flush (s : AsyncFileSession) (d : Dir) : AsyncFileSession × Dir :=
  (s, s.pending.foldl (fun acc e => writeD acc (s.pendingPfx ++ e.1) e.2) d)

/-- One loop iteration of `commit` for entry `(n, b)`:
write the buffered bytes to the staging path, delete the final file if it
exists, then rename the staging file onto the final name.  A failing
I/O step stops the entry and reports `FileWriteError` (the whole loop in
the source sits in one `try`, so the first exception aborts the loop). -/
def commitEntry (fm : Faults) (pfx : String) (d : Dir) (n : String) (b : Bytes) :
    Dir × Option StorageErr :=
  let pp := pfx ++ n
  if fm.writeOk pp = false then (d, some .fileWrite)
  else
    let d1 := writeD d pp b
    if existsD d1 n then
      if fm.removeOk n = false then (d1, some .fileWrite)
      else
        let d2 := removeD d1 n
        if existsD d2 pp then
          if fm.renameOk pp = false then (d2, some .fileWrite)
          else (renameD d2 pp n, none)
        else (d2, none)
    else
      if existsD d1 pp then
        if fm.renameOk pp = false then (d1, some .fileWrite)
        else (renameD d1 pp n, none)
      else (d1, none)

/-- The `commit` loop over the buffered entries, in buffer iteration
order; stops at the first failing entry. -/
def commitLoop (fm : Faults) (pfx : String) :
    Dir → List (String × Bytes) → Dir × Option StorageErr
  | d, [] => (d, none)
  | d, e :: rest =>
    match commitEntry fm pfx d e.1 e.2 with
    | (d', none) => commitLoop fm pfx d' rest
    | (d', some err) => (d', some err)

/-- `commit`: run the loop; the `finally` block clears the buffer whether
or not an exception was raised. -/
def commit (fm : Faults) (s : AsyncFileSession) (d : Dir) :
    AsyncFileSession × Dir × Option StorageErr :=
  let r := commitLoop fm s.pendingPfx d s.pending
  ({ s with pending := [] }, r.1, r.2)

/-- The `rollback` loop: delete each buffered entry's staging file if it
exists; the first failing deletion aborts the loop with `FileWriteError`. -/
def rollbackLoop (fm : Faults) (pfx : String) :
    Dir → List (String × Bytes) → Dir × Option StorageErr
  | d, [] => (d, none)
  | d, e :: rest =>
    let pp := pfx ++ e.1
    if existsD d pp then
      if fm.removeOk pp = false then (d, some .fileWrite)
      else rollbackLoop fm pfx (removeD d pp) rest
    else rollbackLoop fm pfx d rest

/-- `rollback`: run the loop; the `finally` block clears the buffer whether
or not an exception was raised. -/
def rollback (fm : Faults) (s : AsyncFileSession) (d : Dir) :
    AsyncFileSession × Dir × Option StorageErr :=
  let r := rollbackLoop fm s.pendingPfx d s.pending
  ({ s with pending := [] }, r.1, r.2)

/-- `get`: read the final file's content, `FileNotFoundError` if absent. -/
def get (d : Dir) (fileName : String) : Except StorageErr Bytes :=
  match lookupD d fileName with
  | some v => Except.ok v
  | none => Except.error .fileNotFound

/-- `delete`: remove the file if it exists and return `True`, otherwise
leave the directory alone and return `False`. -/
def delete (d : Dir) (fileName : String) : Dir × Bool :=
  if existsD d fileName then (removeD d fileName, true) else (d, false)

/-- `recover`: list the storage root, keep the names that start with the
staging prefix, and delete each of them. -/
def recover (pfx : String) (d : Dir) : Dir :=
  ((listdir d).filter (fun f => startsW f pfx)).foldl removeD d

/-- `list_files`: directory entries whose names do not start with the
staging prefix. -/
def list_files (pfx : String) (d : Dir) : List String :=
  (listdir d).filter (fun f => !(startsW f pfx))

/-- `list_all_files`: every directory entry. -/
def list_all_files (d : Dir) : List String :=
  listdir d

end AsyncFileSession

/-- Observable actions of the Unit-of-Work coordinator, in the order it
performs them. -/
inductive UowEvent where
  | dbCommit
  | dbRollback
  | fsCommit
  | fsRollback
  deriving DecidableEq, Repr

/-- The Unit-of-Work coordinator `get_file_holder_service`:
`bizErr` is the outcome of the business logic run against the yielded
service (`none` = returned normally, `some e` = raised exception `e`),
`s`/`d` are the file session and storage root as the business logic left
them, `dbCommitOk` says whether `db_session.commit()` succeeds.
Returns the trace of commit/rollback actions, the final file session and
storage root, and the exception propagated to the caller (if any).
Filesystem I/O inside this model is fault-free (`allOk`): the claims about
this coordinator concern its ordering and propagation, not disk faults. -/
def get_file_holder_service (bizErr : Option String) (dbCommitOk : Bool)
    (s : AsyncFileSession) (d : Dir) :
    List UowEvent × AsyncFileSession × Dir × Option String :=
  match bizErr with
  | some e =>
    -- `except Exception:` → db rollback, file rollback, re-raise
    let r := AsyncFileSession.rollback allOk s d
    ([.dbRollback, .fsRollback], r.1, r.2.1, some e)
  | none =>
    if dbCommitOk then
      -- success path: `await db_session.commit()` then `await file_session.commit()`
      let r := AsyncFileSession.commit allOk s d
      ([.dbCommit, .fsCommit], r.1, r.2.1,
        r.2.2.map (fun _ => "Failed to commit files"))
    else
      -- db commit raised → `except` → db rollback, file rollback, re-raise
      let r := AsyncFileSession.rollback allOk s d
      ([.dbCommit, .dbRollback, .fsRollback], r.1, r.2.1,
        some "database commit failed")

@[simp] theorem lookupD_nil (k : String) : lookupD [] k = none := rfl

@[simp] theorem lookupD_cons (e : String × Bytes) (rest : Dir) (k : String) :
    lookupD (e :: rest) k = if e.1 = k then some e.2 else lookupD rest k := rfl

@[simp] theorem removeD_cons (e : String × Bytes) (rest : Dir) (k : String) :
    removeD (e :: rest) k = if e.1 = k then removeD rest k else e :: removeD rest k := rfl

theorem lookupD_removeD_self (d : Dir) (k : String) :
    lookupD (removeD d k) k = none := by
  induction d with
  | nil => rfl
  | cons e rest ih =>
    by_cases h : e.1 = k <;> simp [h, ih]

theorem lookupD_removeD_ne (d : Dir) {k k' : String} (h : k' ≠ k) :
    lookupD (removeD d k) k' = lookupD d k' := by
  induction d with
  | nil => rfl
  | cons e rest ih =>
    by_cases he : e.1 = k
    · have hk' : ¬ k = k' := fun hh => h hh.symm
      simp [he, hk', ih]
    · by_cases he' : e.1 = k' <;> simp [he, he', h, ih]

@[simp] theorem lookupD_writeD_self (d : Dir) (k : String) (v : Bytes) :
    lookupD (writeD d k v) k = some v := by
  simp [writeD, lookupD]

theorem lookupD_writeD_ne (d : Dir) {k k' : String} (v : Bytes) (h : k' ≠ k) :
    lookupD (writeD d k v) k' = lookupD d k' := by
  simp only [writeD, lookupD, if_neg (fun hh : k = k' => h hh.symm)]
  exact lookupD_removeD_ne d h

theorem lookupD_eq_none_of_not_mem {d : Dir} {k : String}
    (h : k ∉ listdir d) : lookupD d k = none := by
  induction d with
  | nil => rfl
  | cons e rest ih =>
    simp [listdir] at h
    have h1 : ¬ e.1 = k := fun hc => h.1 hc.symm
    simp [h1, ih (by simpa [listdir] using h.2)]

theorem lookupD_renameD_dst {d : Dir} {src dst : String} {v : Bytes}
    (hsrc : lookupD d src = some v) :
    lookupD (renameD d src dst) dst = some v := by
  simp [renameD, hsrc]

theorem lookupD_renameD_other {d : Dir} {src dst m : String}
    (hm1 : m ≠ src) (hm2 : m ≠ dst) :
    lookupD (renameD d src dst) m = lookupD d m := by
  unfold renameD
  cases hsrc : lookupD d src with
  | none => rfl
  | some v =>
    rw [lookupD_writeD_ne _ _ hm2, lookupD_removeD_ne _ hm1]

/-- For a nonempty prefix string `p`, the staging name `p ++ n` differs from
the final name `n` (their lengths differ). -/
theorem staging_name_ne {p : String} (hp : p ≠ "") (n : String) :
    p ++ n ≠ n := by
  intro h
  have hlen := congrArg String.length h
  rw [String.length_append] at hlen
  have hp0 : 0 < p.length := by
    cases p with
    | mk l =>
      cases l with
      | nil => simp at hp
      | cons a l => simp [String.length]
  omega

/-- Appending to a fixed string on the left is injective. -/
theorem append_cancel_left {p a b : String} (h : p ++ a = p ++ b) : a = b := by
  apply String.ext
  have := congrArg String.data h
  rw [String.data_append, String.data_append] at this
  exact List.append_cancel_left this

/-- A staged name always starts with the staging prefix. -/
theorem startsW_append (p n : String) : startsW (p ++ n) p = true := by
  simp [startsW, String.data_append, List.isPrefixOf_iff_prefix]

/-- After a rename away from `src` (to a different name), nothing is left
at `src`. -/
theorem lookupD_renameD_src {d : Dir} {src dst : String} (h : src ≠ dst) :
    lookupD (renameD d src dst) src = none := by
  unfold renameD
  cases hs : lookupD d src with
  | none => exact hs
  | some v =>
    rw [lookupD_writeD_ne _ _ h]
    exact lookupD_removeD_self _ _

namespace AsyncFileSession

/-- A commit iteration for entry `(n, b)` never touches a file that is
neither the entry's final name nor its staging name, whether or not the
iteration fails. -/
theorem commitEntry_preserve (fm : Faults) (pfx : String) (d : Dir) (n : String)
    (b : Bytes) {m : String} (hm1 : m ≠ n) (hm2 : m ≠ pfx ++ n) :
    lookupD (commitEntry fm pfx d n b).1 m = lookupD d m := by
  have base : lookupD (writeD d (pfx ++ n) b) m = lookupD d m :=
    lookupD_writeD_ne _ _ hm2
  have base2 : lookupD (removeD (writeD d (pfx ++ n) b) n) m = lookupD d m :=
    (lookupD_removeD_ne _ hm1).trans base
  have baseR : ∀ dx : Dir, lookupD dx m = lookupD d m →
      lookupD (renameD dx (pfx ++ n) n) m = lookupD d m :=
    fun dx h => (lookupD_renameD_other hm2 hm1).trans h
  unfold commitEntry
  by_cases hw : fm.writeOk (pfx ++ n) = false
  · rw [if_pos hw]
  · rw [if_neg hw]
    by_cases he1 : existsD (writeD d (pfx ++ n) b) n = true
    · rw [if_pos he1]
      by_cases hr : fm.removeOk n = false
      · rw [if_pos hr]; exact base
      · rw [if_neg hr]
        by_cases he2 : existsD (removeD (writeD d (pfx ++ n) b) n) (pfx ++ n) = true
        · rw [if_pos he2]
          by_cases hrn : fm.renameOk (pfx ++ n) = false
          · rw [if_pos hrn]; exact base2
          · rw [if_neg hrn]; exact baseR _ base2
        · rw [if_neg he2]; exact base2
    · rw [if_neg he1]
      by_cases he2 : existsD (writeD d (pfx ++ n) b) (pfx ++ n) = true
      · rw [if_pos he2]
        by_cases hrn : fm.renameOk (pfx ++ n) = false
        · rw [if_pos hrn]; exact base
        · rw [if_neg hrn]; exact baseR _ base
      · rw [if_neg he2]; exact base

/-- A successful commit iteration for entry `(n, b)` leaves the final name
holding exactly the buffered bytes and no staging artifact for the entry
(assuming the staging name differs from the final name). -/
theorem commitEntry_ok (fm : Faults) (pfx : String) (d : Dir) (n : String)
    (b : Bytes) (hne : pfx ++ n ≠ n)
    (h : (commitEntry fm pfx d n b).2 = none) :
    lookupD (commitEntry fm pfx d n b).1 n = some b ∧
    lookupD (commitEntry fm pfx d n b).1 (pfx ++ n) = none := by
  have hd1 : lookupD (writeD d (pfx ++ n) b) (pfx ++ n) = some b :=
    lookupD_writeD_self _ _ _
  have hd2 : lookupD (removeD (writeD d (pfx ++ n) b) n) (pfx ++ n) = some b :=
    (lookupD_removeD_ne _ hne).trans hd1
  unfold commitEntry at h ⊢
  by_cases hw : fm.writeOk (pfx ++ n) = false
  · rw [if_pos hw] at h; exact absurd h (by simp)
  · rw [if_neg hw] at h ⊢
    by_cases he1 : existsD (writeD d (pfx ++ n) b) n = true
    · rw [if_pos he1] at h ⊢
      by_cases hr : fm.removeOk n = false
      · rw [if_pos hr] at h; exact absurd h (by simp)
      · rw [if_neg hr] at h ⊢
        have he2 : existsD (removeD (writeD d (pfx ++ n) b) n) (pfx ++ n) = true := by
          simp [existsD, hd2]
        rw [if_pos he2] at h ⊢
        by_cases hrn : fm.renameOk (pfx ++ n) = false
        · rw [if_pos hrn] at h; exact absurd h (by simp)
        · rw [if_neg hrn]
          exact ⟨lookupD_renameD_dst hd2, lookupD_renameD_src hne⟩
    · rw [if_neg he1] at h ⊢
      have he2 : existsD (writeD d (pfx ++ n) b) (pfx ++ n) = true := by
        simp [existsD, hd1]
      rw [if_pos he2] at h ⊢
      by_cases hrn : fm.renameOk (pfx ++ n) = false
      · rw [if_pos hrn] at h; exact absurd h (by simp)
      · rw [if_neg hrn]
        exact ⟨lookupD_renameD_dst hd1, lookupD_renameD_src hne⟩

end AsyncFileSession

namespace AsyncFileSession

/-- The commit loop never touches a file that is neither a buffered
entry's final name nor a buffered entry's staging name. -/
theorem commitLoop_preserve (fm : Faults) (pfx : String) {m : String} :
    ∀ (l : List (String × Bytes)) (d : Dir),
    m ∉ l.map Prod.fst → (∀ j ∈ l.map Prod.fst, m ≠ pfx ++ j) →
    lookupD (commitLoop fm pfx d l).1 m = lookupD d m := by
  intro l
  induction l with
  | nil => intro d _ _; rfl
  | cons e rest ih =>
    intro d hmem hclash
    have hm1 : m ≠ e.1 := by
      intro hc; exact hmem (by simp [hc])
    have hm2 : m ≠ pfx ++ e.1 := hclash e.1 (by simp)
    have hpres := commitEntry_preserve fm pfx d e.1 e.2 hm1 hm2
    unfold commitLoop
    cases hE : commitEntry fm pfx d e.1 e.2 with
    | mk d' err =>
      rw [hE] at hpres
      cases err with
      | none =>
        simp only []
        rw [ih d' (fun hc => hmem (by simp [hc]))
          (fun j hj => hclash j (by simp [hj]))]
        exact hpres
      | some e' => exact hpres

/-- After a fully successful commit loop, every buffered entry's final
name holds exactly its buffered bytes — provided buffered names are
pairwise distinct and no buffered name coincides with the staging name of
a buffered name. -/
theorem commitLoop_ok_lookup (fm : Faults) (pfx : String) :
    ∀ (l : List (String × Bytes)) (d : Dir),
    (commitLoop fm pfx d l).2 = none →
    (l.map Prod.fst).Nodup →
    (∀ j ∈ l.map Prod.fst, ∀ j' ∈ l.map Prod.fst, j ≠ pfx ++ j') →
    ∀ p ∈ l, lookupD (commitLoop fm pfx d l).1 p.1 = some p.2 := by
  intro l
  induction l with
  | nil => intro d _ _ _ p hp; exact absurd hp (by simp)
  | cons e rest ih =>
    intro d hok hnd hclash p hp
    have hne : pfx ++ e.1 ≠ e.1 :=
      Ne.symm (hclash e.1 (by simp) e.1 (by simp))
    unfold commitLoop at hok ⊢
    cases hE : commitEntry fm pfx d e.1 e.2 with
    | mk d' err =>
      rw [hE] at hok
      cases err with
      | some e' => exact absurd hok (by simp)
      | none =>
        simp only [] at hok ⊢
        have hEfst : (commitEntry fm pfx d e.1 e.2).1 = d' := by rw [hE]
        have hEsnd : (commitEntry fm pfx d e.1 e.2).2 = none := by rw [hE]
        rw [List.map_cons] at hnd
        rw [List.mem_cons] at hp
        rcases hp with hp | hp
        · rw [hp]
          have hrest1 : e.1 ∉ rest.map Prod.fst :=
            (List.nodup_cons.mp hnd).1
          have hrest2 : ∀ j ∈ rest.map Prod.fst, e.1 ≠ pfx ++ j :=
            fun j hj => hclash e.1 (by simp) j (by simp [hj])
          rw [commitLoop_preserve fm pfx rest d' hrest1 hrest2]
          have h2 := (commitEntry_ok fm pfx d e.1 e.2 hne hEsnd).1
          rw [hEfst] at h2
          exact h2
        · exact ih d' hok (List.nodup_cons.mp hnd).2
            (fun j hj j' hj' => hclash j (by simp [hj]) j' (by simp [hj'])) p hp

/-- Unfolding equation for the commit loop on a nonempty buffer. -/
theorem commitLoop_cons (fm : Faults) (pfx : String) (d : Dir)
    (e : String × Bytes) (rest : List (String × Bytes)) :
    commitLoop fm pfx d (e :: rest) =
      match commitEntry fm pfx d e.1 e.2 with
      | (d', none) => commitLoop fm pfx d' rest
      | (d', some err) => (d', some err) := rfl

/-- Splitting the commit loop at a successfully processed initial
segment. -/
theorem commitLoop_append (fm : Faults) (pfx : String) :
    ∀ (l1 l2 : List (String × Bytes)) (d d1 : Dir),
    commitLoop fm pfx d l1 = (d1, none) →
    commitLoop fm pfx d (l1 ++ l2) = commitLoop fm pfx d1 l2 := by
  intro l1
  induction l1 with
  | nil =>
    intro l2 d d1 h
    have hd : d = d1 := congrArg Prod.fst h
    simp [hd]
  | cons e rest ih =>
    intro l2 d d1 h
    rw [commitLoop_cons] at h
    rw [List.cons_append, commitLoop_cons]
    cases hE : commitEntry fm pfx d e.1 e.2 with
    | mk d' err =>
      rw [hE] at h
      cases err with
      | none => exact ih l2 d' d1 h
      | some e' =>
        have hsnd := congrArg Prod.snd h
        simp at hsnd

end AsyncFileSession

namespace AsyncFileSession

/-- The staging-write fold of `flush` does not touch any path that is not
the staging path of a buffered name. -/
theorem flushFold_preserve (pfx : String) {p : String} :
    ∀ (l : List (String × Bytes)) (d : Dir),
    (∀ j ∈ l.map Prod.fst, p ≠ pfx ++ j) →
    lookupD (l.foldl (fun acc e => writeD acc (pfx ++ e.1) e.2) d) p = lookupD d p := by
  intro l
  induction l with
  | nil => intro d _; rfl
  | cons e rest ih =>
    intro d hcl
    rw [List.foldl_cons]
    rw [ih _ (fun j hj => hcl j (by simp [hj]))]
    exact lookupD_writeD_ne _ _ (hcl e.1 (by simp))

/-- After the staging-write fold, the staging path of a buffered name
holds exactly the buffered bytes (buffered names pairwise distinct). -/
theorem flushFold_lookup (pfx : String) :
    ∀ (l : List (String × Bytes)) (d : Dir) (n : String) (b : Bytes),
    (l.map Prod.fst).Nodup →
    lookupD l n = some b →
    lookupD (l.foldl (fun acc e => writeD acc (pfx ++ e.1) e.2) d) (pfx ++ n) = some b := by
  intro l
  induction l with
  | nil => intro d n b _ hb; exact absurd hb (by simp)
  | cons e rest ih =>
    intro d n b hnd hb
    rw [List.map_cons] at hnd
    rw [List.foldl_cons]
    rw [lookupD_cons] at hb
    by_cases he : e.1 = n
    · rw [if_pos he] at hb
      have hnmem : n ∉ rest.map Prod.fst := he ▸ (List.nodup_cons.mp hnd).1
      have hcl : ∀ j ∈ rest.map Prod.fst, pfx ++ n ≠ pfx ++ j := by
        intro j hj hc
        exact hnmem (append_cancel_left hc ▸ hj)
      rw [flushFold_preserve pfx rest _ hcl]
      rw [he, ← hb]
      exact lookupD_writeD_self _ _ _
    · rw [if_neg he] at hb
      exact ih _ n b (List.nodup_cons.mp hnd).2 hb

/-- A commit iteration that reports no failure behaves exactly like the
fault-free iteration on the same directory. -/
theorem commitEntry_none_eq (fm : Faults) (pfx : String) (d : Dir) (n : String)
    (b : Bytes) (h : (commitEntry fm pfx d n b).2 = none) :
    commitEntry fm pfx d n b = commitEntry allOk pfx d n b := by
  have hw0 : ¬ (allOk.writeOk (pfx ++ n) = false) := by simp [allOk]
  have hr0 : ¬ (allOk.removeOk n = false) := by simp [allOk]
  have hn0 : ¬ (allOk.renameOk (pfx ++ n) = false) := by simp [allOk]
  unfold commitEntry at h ⊢
  by_cases hw : fm.writeOk (pfx ++ n) = false
  · rw [if_pos hw] at h; exact absurd h (by simp)
  · rw [if_neg hw] at h ⊢
    rw [if_neg hw0]
    by_cases he1 : existsD (writeD d (pfx ++ n) b) n = true
    · rw [if_pos he1] at h ⊢
      rw [if_pos he1]
      by_cases hr : fm.removeOk n = false
      · rw [if_pos hr] at h; exact absurd h (by simp)
      · rw [if_neg hr] at h ⊢
        rw [if_neg hr0]
        by_cases he2 : existsD (removeD (writeD d (pfx ++ n) b) n) (pfx ++ n) = true
        · rw [if_pos he2] at h ⊢
          rw [if_pos he2]
          by_cases hrn : fm.renameOk (pfx ++ n) = false
          · rw [if_pos hrn] at h; exact absurd h (by simp)
          · rw [if_neg hrn, if_neg hn0]
        · rw [if_neg he2]
          rw [if_neg he2]
    · rw [if_neg he1] at h ⊢
      rw [if_neg he1]
      by_cases he2 : existsD (writeD d (pfx ++ n) b) (pfx ++ n) = true
      · rw [if_pos he2] at h ⊢
        rw [if_pos he2]
        by_cases hrn : fm.renameOk (pfx ++ n) = false
        · rw [if_pos hrn] at h; exact absurd h (by simp)
        · rw [if_neg hrn, if_neg hn0]
      · rw [if_neg he2]
        rw [if_neg he2]

/-- A commit loop that reports no failure behaves exactly like the
fault-free loop on the same directory. -/
theorem commitLoop_none_eq (fm : Faults) (pfx : String) :
    ∀ (l : List (String × Bytes)) (d : Dir),
    (commitLoop fm pfx d l).2 = none →
    commitLoop fm pfx d l = commitLoop allOk pfx d l := by
  intro l
  induction l with
  | nil => intro d _; rfl
  | cons e rest ih =>
    intro d h
    rw [commitLoop_cons] at h ⊢
    rw [commitLoop_cons]
    cases hE : commitEntry fm pfx d e.1 e.2 with
    | mk d' err =>
      rw [hE] at h
      cases err with
      | none =>
        have hEq := commitEntry_none_eq fm pfx d e.1 e.2 (by rw [hE])
        rw [hE] at hEq
        rw [← hEq]
        exact ih d' h
      | some e' => exact absurd h (by simp)

/-- A rollback loop that reports no failure behaves exactly like the
fault-free loop on the same directory. -/
theorem rollbackLoop_none_eq (fm : Faults) (pfx : String) :
    ∀ (l : List (String × Bytes)) (d : Dir),
    (rollbackLoop fm pfx d l).2 = none →
    rollbackLoop fm pfx d l = rollbackLoop allOk pfx d l := by
  intro l
  induction l with
  | nil => intro d _; rfl
  | cons e rest ih =>
    intro d h
    unfold rollbackLoop at h ⊢
    by_cases hex : existsD d (pfx ++ e.1) = true
    · rw [if_pos hex] at h ⊢
      rw [if_pos hex]
      by_cases hr : fm.removeOk (pfx ++ e.1) = false
      · rw [if_pos hr] at h; exact absurd h (by simp)
      · rw [if_neg hr] at h ⊢
        rw [if_neg (show ¬ (allOk.removeOk (pfx ++ e.1) = false) by simp [allOk])]
        exact ih _ h
    · rw [if_neg hex] at h ⊢
      rw [if_neg hex]
      exact ih _ h

end AsyncFileSession

namespace AsyncFileSession

@[simp] theorem commitLoop_nil (fm : Faults) (pfx : String) (d : Dir) :
    commitLoop fm pfx d [] = (d, none) := rfl

@[simp] theorem rollbackLoop_nil (fm : Faults) (pfx : String) (d : Dir) :
    rollbackLoop fm pfx d [] = (d, none) := rfl

/-- Unfolding equation for the rollback loop on a nonempty buffer. -/
theorem rollbackLoop_cons (fm : Faults) (pfx : String) (d : Dir)
    (e : String × Bytes) (rest : List (String × Bytes)) :
    rollbackLoop fm pfx d (e :: rest) =
      if existsD d (pfx ++ e.1) then
        if fm.removeOk (pfx ++ e.1) = false then (d, some StorageErr.fileWrite)
        else rollbackLoop fm pfx (removeD d (pfx ++ e.1)) rest
      else rollbackLoop fm pfx d rest := rfl

/-- Under the fault-free oracle a commit iteration reports no failure. -/
theorem commitEntry_allOk_none (pfx : String) (d : Dir) (n : String) (b : Bytes) :
    (commitEntry allOk pfx d n b).2 = none := by
  have hw0 : ¬ (allOk.writeOk (pfx ++ n) = false) := by simp [allOk]
  have hr0 : ¬ (allOk.removeOk n = false) := by simp [allOk]
  have hn0 : ¬ (allOk.renameOk (pfx ++ n) = false) := by simp [allOk]
  unfold commitEntry
  rw [if_neg hw0]
  by_cases he1 : existsD (writeD d (pfx ++ n) b) n = true
  · rw [if_pos he1, if_neg hr0]
    by_cases he2 : existsD (removeD (writeD d (pfx ++ n) b) n) (pfx ++ n) = true
    · rw [if_pos he2, if_neg hn0]
    · rw [if_neg he2]
  · rw [if_neg he1]
    by_cases he2 : existsD (writeD d (pfx ++ n) b) (pfx ++ n) = true
    · rw [if_pos he2, if_neg hn0]
    · rw [if_neg he2]

/-- Under the fault-free oracle the commit loop steps through each entry. -/
theorem commitLoop_allOk_cons (pfx : String) (d : Dir) (n : String) (c : Bytes)
    (rest : List (String × Bytes)) :
    commitLoop allOk pfx d ((n, c) :: rest) =
      commitLoop allOk pfx (commitEntry allOk pfx d n c).1 rest := by
  rw [commitLoop_cons]
  cases hE : commitEntry allOk pfx d n c with
  | mk d' err =>
    have herr : err = none := by
      have h0 := commitEntry_allOk_none pfx d n c
      rw [hE] at h0
      exact h0
    subst herr
    rfl

end AsyncFileSession

open AsyncFileSession

/-- Claim C1: for every logical name `n` and byte content `c`, calling
`add(n, c)` and then `commit()` on a (fresh) session yields a state where
`get(n)` returns exactly `c`, and no staging artifact (file named
`<reserved_prefix>n`) remains in the storage directory.  (The reserved
prefix is assumed nonempty, as the default `"pending_"` is.) -/
theorem claim_C1 (s : AsyncFileSession) (d : Dir) (n : String) (c : Bytes)
    (hfresh : s.pending = []) (hpfx : s.pendingPfx ≠ "") :
    AsyncFileSession.get (commit allOk (add s c n) d).2.1 n = Except.ok c ∧
    lookupD (commit allOk (add s c n) d).2.1 (s.pendingPfx ++ n) = none := by
  have hpend : dictUpsert s.pending n c = [(n, c)] := by
    simp [dictUpsert, hfresh]
  have hne := staging_name_ne hpfx n
  have hok := commitEntry_allOk_none s.pendingPfx d n c
  have hent := commitEntry_ok allOk s.pendingPfx d n c hne hok
  have hcom : (commit allOk (add s c n) d).2.1
      = (commitEntry allOk s.pendingPfx d n c).1 := by
    simp only [commit, add, hpend]
    rw [commitLoop_allOk_cons, commitLoop_nil]
  constructor
  · rw [hcom]
    unfold AsyncFileSession.get
    rw [hent.1]
  · rw [hcom]
    exact hent.2

/-- Witness for C1 at a concrete input. -/
theorem claim_C1_witness :
    AsyncFileSession.get (commit allOk (add ⟨"pending_", []⟩ [1, 2] "a") []).2.1 "a" = Except.ok [1, 2] ∧
    lookupD (commit allOk (add ⟨"pending_", []⟩ [1, 2] "a") []).2.1 ("pending_" ++ "a") = none :=
  claim_C1 ⟨"pending_", []⟩ [] "a" [1, 2] rfl (by decide)

/-- Claim C2: for every logical name `n` and content `c`, `add(n, c)`
followed by `rollback()` (on a fresh session) leaves no new Final Artifact
and no Staging Artifact for `n` — the entry under `n` is exactly what it
was before — and rollback never modifies or deletes any Final Artifact:
every file whose name does not carry the reserved prefix is unchanged. -/
theorem claim_C2 (s : AsyncFileSession) (d : Dir) (n : String) (c : Bytes)
    (hfresh : s.pending = []) (hpfx : s.pendingPfx ≠ "") :
    lookupD (rollback allOk (add s c n) d).2.1 (s.pendingPfx ++ n) = none ∧
    lookupD (rollback allOk (add s c n) d).2.1 n = lookupD d n ∧
    ∀ f, startsW f s.pendingPfx = false →
      lookupD (rollback allOk (add s c n) d).2.1 f = lookupD d f := by
  have hpend : dictUpsert s.pending n c = [(n, c)] := by
    simp [dictUpsert, hfresh]
  have hne := staging_name_ne hpfx n
  have hroll : (rollback allOk (add s c n) d).2.1
      = (rollbackLoop allOk s.pendingPfx d [(n, c)]).1 := by
    simp only [rollback, add, hpend]
  rw [hroll]
  by_cases hex : existsD d (s.pendingPfx ++ n) = true
  · have hL : rollbackLoop allOk s.pendingPfx d [(n, c)]
        = (removeD d (s.pendingPfx ++ n), none) := by
      rw [rollbackLoop_cons]
      simp only []
      rw [if_pos hex,
        if_neg (show ¬ (allOk.removeOk (s.pendingPfx ++ n) = false) by simp [allOk]),
        rollbackLoop_nil]
    rw [hL]
    refine ⟨lookupD_removeD_self _ _, lookupD_removeD_ne _ (Ne.symm hne), ?_⟩
    intro f hf
    have hfne : f ≠ s.pendingPfx ++ n := by
      intro hc
      rw [hc, startsW_append] at hf
      exact absurd hf (by simp)
    exact lookupD_removeD_ne _ hfne
  · have hL : rollbackLoop allOk s.pendingPfx d [(n, c)] = (d, none) := by
      rw [rollbackLoop_cons]
      simp only []
      rw [if_neg hex, rollbackLoop_nil]
    rw [hL]
    have hnone : lookupD d (s.pendingPfx ++ n) = none := by
      cases h : lookupD d (s.pendingPfx ++ n) with
      | none => rfl
      | some v => exact absurd (by simp [existsD, h]) hex
    exact ⟨hnone, rfl, fun f _ => rfl⟩

/-- Witness for C2 at a concrete input (a prior Final Artifact for `"a"`
and a stale staging artifact are both present). -/
theorem claim_C2_witness :
    lookupD (rollback allOk (add ⟨"pending_", []⟩ [1] "a")
        [("a", [9]), ("pending_a", [7])]).2.1 ("pending_" ++ "a") = none ∧
    lookupD (rollback allOk (add ⟨"pending_", []⟩ [1] "a")
        [("a", [9]), ("pending_a", [7])]).2.1 "a"
      = lookupD [("a", [9]), ("pending_a", [7])] "a" ∧
    lookupD (rollback allOk (add ⟨"pending_", []⟩ [1] "a")
        [("a", [9]), ("pending_a", [7])]).2.1 "b"
      = lookupD [("a", [9]), ("pending_a", [7])] "b" := by
  have h := claim_C2 ⟨"pending_", []⟩ [("a", [9]), ("pending_a", [7])] "a" [1]
    rfl (by decide)
  exact ⟨h.1, h.2.1, h.2.2 "b" (by decide)⟩

/-- Unfolding equation for the commit loop with a pair-literal head. -/
theorem commitLoop_cons2 (fm : Faults) (pfx : String) (d : Dir) (n : String)
    (b : Bytes) (rest : List (String × Bytes)) :
    commitLoop fm pfx d ((n, b) :: rest) =
      match commitEntry fm pfx d n b with
      | (d', none) => commitLoop fm pfx d' rest
      | (d', some err) => (d', some err) := rfl

/-- Claim C3: `commit()` processes buffered entries in buffer iteration
order; if the stage-or-rename step for the k-th entry fails (here: the
buffer splits as `pre ++ (n, b) :: rest`, the entries of `pre` were
processed successfully, and the iteration for `(n, b)` fails), then every
entry processed before it is already a Final Artifact holding its buffered
content, and `commit()` reports the write failure to the caller.
(Buffered names are assumed pairwise distinct — they are `dict` keys — and
no buffered name may equal the staging name of a buffered name.) -/
theorem claim_C3 (fm : Faults) (s : AsyncFileSession) (d dmid : Dir)
    (pre rest : List (String × Bytes)) (n : String) (b : Bytes)
    (hsplit : s.pending = pre ++ (n, b) :: rest)
    (hnd : (s.pending.map Prod.fst).Nodup)
    (hclash : ∀ j ∈ s.pending.map Prod.fst, ∀ j' ∈ s.pending.map Prod.fst,
      j ≠ s.pendingPfx ++ j')
    (hpre : commitLoop fm s.pendingPfx d pre = (dmid, none))
    (hfail : (commitEntry fm s.pendingPfx dmid n b).2 = some StorageErr.fileWrite) :
    (commit fm s d).2.2 = some StorageErr.fileWrite ∧
    ∀ p ∈ pre, lookupD (commit fm s d).2.1 p.1 = some p.2 := by
  have hkeys : s.pending.map Prod.fst
      = pre.map Prod.fst ++ n :: rest.map Prod.fst := by
    rw [hsplit]; simp
  have hndsplit := hnd
  rw [hkeys] at hndsplit
  have hndpre : (pre.map Prod.fst).Nodup := (List.nodup_append.mp hndsplit).1
  have hnpre : n ∉ pre.map Prod.fst := by
    intro hc
    exact (List.nodup_append.mp hndsplit).2.2 hc (by simp)
  have hloop : commitLoop fm s.pendingPfx d s.pending
      = ((commitEntry fm s.pendingPfx dmid n b).1, some StorageErr.fileWrite) := by
    rw [hsplit, commitLoop_append fm s.pendingPfx pre ((n, b) :: rest) d dmid hpre,
      commitLoop_cons2]
    cases hE : commitEntry fm s.pendingPfx dmid n b with
    | mk d' err =>
      rw [hE] at hfail
      have herr : err = some StorageErr.fileWrite := hfail
      subst herr
      rfl
  have hres : (commit fm s d).2
      = ((commitEntry fm s.pendingPfx dmid n b).1, some StorageErr.fileWrite) := by
    simp only [commit]
    rw [hloop]
  constructor
  · rw [hres]
  · intro p hp
    have h21 : (commit fm s d).2.1 = (commitEntry fm s.pendingPfx dmid n b).1 := by
      rw [hres]
    rw [h21]
    have hp1 : p.1 ∈ pre.map Prod.fst := List.mem_map_of_mem Prod.fst hp
    have hpn : p.1 ≠ n := fun hc => hnpre (hc ▸ hp1)
    have hppn : p.1 ≠ s.pendingPfx ++ n :=
      hclash p.1 (by rw [hkeys]; exact List.mem_append_left _ hp1) n
        (by rw [hkeys]; simp)
    rw [commitEntry_preserve fm s.pendingPfx dmid n b hpn hppn]
    have hclashpre : ∀ j ∈ pre.map Prod.fst, ∀ j' ∈ pre.map Prod.fst,
        j ≠ s.pendingPfx ++ j' := by
      intro j hj j' hj'
      exact hclash j (by rw [hkeys]; exact List.mem_append_left _ hj) j'
        (by rw [hkeys]; exact List.mem_append_left _ hj')
    have hpreok := commitLoop_ok_lookup fm s.pendingPfx pre d
      (by rw [hpre]) hndpre hclashpre p hp
    rw [hpre] at hpreok
    exact hpreok

/-- Witness for C3 at a concrete input: two buffered entries, the staging
write of the second one fails; the first is already final, and the commit
reports the failure. -/
theorem claim_C3_witness :
    (commit ⟨fun p => p != "pending_b", fun _ => true, fun _ => true⟩
        ⟨"pending_", [("a", [1]), ("b", [2])]⟩ []).2.2
      = some StorageErr.fileWrite ∧
    lookupD (commit ⟨fun p => p != "pending_b", fun _ => true, fun _ => true⟩
        ⟨"pending_", [("a", [1]), ("b", [2])]⟩ []).2.1 "a" = some [1] := by
  have h := claim_C3 ⟨fun p => p != "pending_b", fun _ => true, fun _ => true⟩
    ⟨"pending_", [("a", [1]), ("b", [2])]⟩ [] [("a", [1])]
    [("a", [1])] [] "b" [2] rfl (by decide) (by decide) (by decide) (by decide)
  exact ⟨h.1, h.2 ("a", [1]) (by decide)⟩

/-- Claim C4: in the Unit-of-Work coordinator, on the success path the
database transaction commits strictly before the file-storage session
commits (the trace is exactly `[dbCommit, fsCommit]`); on any failure
raised during business logic, both the database transaction and the
file-storage session are rolled back and the triggering failure is
propagated to the caller. -/
theorem claim_C4 (s : AsyncFileSession) (d : Dir) :
    (get_file_holder_service none true s d).1 = [UowEvent.dbCommit, UowEvent.fsCommit] ∧
    ∀ (e : String) (ok : Bool),
      (get_file_holder_service (some e) ok s d).1
        = [UowEvent.dbRollback, UowEvent.fsRollback] ∧
      (get_file_holder_service (some e) ok s d).2.2.2 = some e ∧
      (get_file_holder_service (some e) ok s d).2.1.pending = [] :=
  ⟨rfl, fun _ _ => ⟨rfl, rfl, rfl⟩⟩

/-- Splitting the rollback loop at a successfully processed initial
segment. -/
theorem rollbackLoop_append (fm : Faults) (pfx : String) :
    ∀ (l1 l2 : List (String × Bytes)) (d d1 : Dir),
    rollbackLoop fm pfx d l1 = (d1, none) →
    rollbackLoop fm pfx d (l1 ++ l2) = rollbackLoop fm pfx d1 l2 := by
  intro l1
  induction l1 with
  | nil =>
    intro l2 d d1 h
    have hd : d = d1 := congrArg Prod.fst h
    simp [hd]
  | cons e rest ih =>
    intro l2 d d1 h
    rw [rollbackLoop_cons] at h
    rw [List.cons_append, rollbackLoop_cons]
    by_cases hex : existsD d (pfx ++ e.1) = true
    · rw [if_pos hex] at h ⊢
      by_cases hr : fm.removeOk (pfx ++ e.1) = false
      · rw [if_pos hr] at h
        exact absurd (congrArg Prod.snd h) (by simp)
      · rw [if_neg hr] at h ⊢
        exact ih l2 _ d1 h
    · rw [if_neg hex] at h ⊢
      exact ih l2 d d1 h

/-- Claim C5 — counterexample.  Two entries are buffered and both staging
artifacts exist on disk; deleting the first staging artifact fails (and a
write failure is signalled), yet the staging artifact of the remaining
buffered entry—whose deletion would have succeeded—is still present:
`rollback()` stopped at the first failure instead of attempting the rest. -/
theorem claim_C5_counterexample :
    (rollback ⟨fun _ => true, fun p => p != "pending_a", fun _ => true⟩
        ⟨"pending_", [("a", [1]), ("b", [2])]⟩
        [("pending_a", [1]), ("pending_b", [2])]).2.2 = some StorageErr.fileWrite ∧
    ¬ (lookupD (rollback ⟨fun _ => true, fun p => p != "pending_a", fun _ => true⟩
        ⟨"pending_", [("a", [1]), ("b", [2])]⟩
        [("pending_a", [1]), ("pending_b", [2])]).2.1 "pending_b" = none) := by
  decide

/-- Claim C5 as amended: if deleting the staging artifact of a buffered
entry fails during `rollback()` (entries before it having been processed
successfully, leaving directory `dmid`), `rollback()` signals a write
failure and stops at that entry — the directory is left exactly as it was
when the failure occurred, so staging artifacts of the remaining entries
are not attempted — and the in-memory buffer is still cleared. -/
theorem claim_C5_amended (fm : Faults) (s : AsyncFileSession) (d dmid : Dir)
    (pre rest : List (String × Bytes)) (n : String) (b : Bytes)
    (hsplit : s.pending = pre ++ (n, b) :: rest)
    (hpre : rollbackLoop fm s.pendingPfx d pre = (dmid, none))
    (hex : existsD dmid (s.pendingPfx ++ n) = true)
    (hfail : fm.removeOk (s.pendingPfx ++ n) = false) :
    (rollback fm s d).2.2 = some StorageErr.fileWrite ∧
    (rollback fm s d).2.1 = dmid ∧
    (rollback fm s d).1.pending = [] := by
  have hloop : rollbackLoop fm s.pendingPfx d s.pending
      = (dmid, some StorageErr.fileWrite) := by
    rw [hsplit, rollbackLoop_append fm s.pendingPfx pre ((n, b) :: rest) d dmid hpre,
      rollbackLoop_cons]
    simp only []
    rw [if_pos hex, if_pos hfail]
  refine ⟨?_, ?_, rfl⟩
  · show (rollbackLoop fm s.pendingPfx d s.pending).2 = some StorageErr.fileWrite
    rw [hloop]
  · show (rollbackLoop fm s.pendingPfx d s.pending).1 = dmid
    rw [hloop]

/-- Witness for the amended C5 at a concrete input: the second entry's
staging artifact cannot be deleted; the first was already deleted, the
failure is signalled, and the buffer is cleared. -/
theorem claim_C5_amended_witness :
    (rollback ⟨fun _ => true, fun p => p != "pending_b", fun _ => true⟩
        ⟨"pending_", [("a", [1]), ("b", [2])]⟩
        [("pending_a", [1]), ("pending_b", [2])]).2.2 = some StorageErr.fileWrite ∧
    (rollback ⟨fun _ => true, fun p => p != "pending_b", fun _ => true⟩
        ⟨"pending_", [("a", [1]), ("b", [2])]⟩
        [("pending_a", [1]), ("pending_b", [2])]).2.1 = [("pending_b", [2])] ∧
    (rollback ⟨fun _ => true, fun p => p != "pending_b", fun _ => true⟩
        ⟨"pending_", [("a", [1]), ("b", [2])]⟩
        [("pending_a", [1]), ("pending_b", [2])]).1.pending = [] :=
  claim_C5_amended ⟨fun _ => true, fun p => p != "pending_b", fun _ => true⟩
    ⟨"pending_", [("a", [1]), ("b", [2])]⟩
    [("pending_a", [1]), ("pending_b", [2])] [("pending_b", [2])]
    [("a", [1])] [] "b" [2] rfl (by decide) (by decide) (by decide)

/-- Folding deletions over a list of names removes exactly those names. -/
theorem lookupD_foldl_removeD :
    ∀ (ks : List String) (d : Dir) (f : String),
    lookupD (ks.foldl removeD d) f = if f ∈ ks then none else lookupD d f := by
  intro ks
  induction ks with
  | nil => intro d f; simp
  | cons k ks ih =>
    intro d f
    rw [List.foldl_cons, ih]
    by_cases hf : f ∈ ks
    · rw [if_pos hf, if_pos (by simp [hf])]
    · rw [if_neg hf]
      by_cases hfk : f = k
      · rw [if_pos (by simp [hfk]), hfk]
        exact lookupD_removeD_self _ _
      · rw [if_neg (by simp [hfk, hf])]
        exact lookupD_removeD_ne _ hfk

/-- What `recover` leaves at each name: prefix-carrying names are gone,
all others are untouched. -/
theorem recover_spec (pfx : String) (d : Dir) (f : String) :
    lookupD (AsyncFileSession.recover pfx d) f
      = if startsW f pfx = true then none else lookupD d f := by
  unfold AsyncFileSession.recover
  rw [lookupD_foldl_removeD]
  by_cases hs : startsW f pfx = true
  · rw [if_pos hs]
    by_cases hmem : f ∈ (listdir d).filter (fun g => startsW g pfx)
    · rw [if_pos hmem]
    · rw [if_neg hmem]
      apply lookupD_eq_none_of_not_mem
      intro hin
      exact hmem (List.mem_filter.mpr ⟨hin, hs⟩)
  · rw [if_neg hs, if_neg]
    intro hmem
    exact hs (List.mem_filter.mp hmem).2

/-- Claim C6: `recover()` deletes exactly the directory entries whose
names start with the reserved prefix — afterwards no file carrying the
prefix remains, and every file not carrying the prefix is unchanged. -/
theorem claim_C6 (pfx : String) (d : Dir) (f : String) :
    (startsW f pfx = true → lookupD (AsyncFileSession.recover pfx d) f = none) ∧
    (startsW f pfx = false → lookupD (AsyncFileSession.recover pfx d) f = lookupD d f) := by
  rw [recover_spec]
  constructor
  · intro hs
    rw [if_pos hs]
  · intro hs
    rw [if_neg (by simp [hs])]

/-- Witness for C6 at a concrete input. -/
theorem claim_C6_witness :
    lookupD (AsyncFileSession.recover "pending_" [("a", [1]), ("pending_a", [2])])
      "pending_a" = none ∧
    lookupD (AsyncFileSession.recover "pending_" [("a", [1]), ("pending_a", [2])])
      "a" = lookupD [("a", [1]), ("pending_a", [2])] "a" :=
  ⟨(claim_C6 "pending_" [("a", [1]), ("pending_a", [2])] "pending_a").1 (by decide),
   (claim_C6 "pending_" [("a", [1]), ("pending_a", [2])] "a").2 (by decide)⟩

/-- Claim C7: `flush()` leaves the in-memory buffer unmodified, and is
idempotent per entry: flushing twice with unchanged buffer contents
produces a byte-identical staging artifact for each buffered name
(both flushes leave exactly the buffered bytes at the staging path). -/
theorem claim_C7 (s : AsyncFileSession) (d : Dir)
    (hnd : (s.pending.map Prod.fst).Nodup) :
    (flush s d).1 = s ∧
    ∀ n b, lookupD s.pending n = some b →
      lookupD (flush s (flush s d).2).2 (s.pendingPfx ++ n) = some b ∧
      lookupD (flush s d).2 (s.pendingPfx ++ n) = some b := by
  refine ⟨rfl, ?_⟩
  intro n b hb
  constructor
  · exact flushFold_lookup s.pendingPfx s.pending _ n b hnd hb
  · exact flushFold_lookup s.pendingPfx s.pending _ n b hnd hb

/-- Witness for C7 at a concrete input. -/
theorem claim_C7_witness :
    (flush ⟨"pending_", [("a", [1])]⟩ []).1 = ⟨"pending_", [("a", [1])]⟩ ∧
    lookupD (flush ⟨"pending_", [("a", [1])]⟩
        (flush ⟨"pending_", [("a", [1])]⟩ []).2).2 ("pending_" ++ "a") = some [1] ∧
    lookupD (flush ⟨"pending_", [("a", [1])]⟩ []).2 ("pending_" ++ "a") = some [1] := by
  have h := claim_C7 ⟨"pending_", [("a", [1])]⟩ [] (by decide)
  exact ⟨h.1, (h.2 "a" [1] (by decide)).1, (h.2 "a" [1] (by decide)).2⟩

/-- Claim C8: on exit from `commit()` and from `rollback()` — success or
failure — the session's in-memory pending buffer is empty; and neither
operation silently swallows an I/O failure: whenever no failure is
reported, the directory is exactly what the fault-free run produces (so a
run in which some I/O step failed cannot report success). -/
theorem claim_C8 (fm : Faults) (s : AsyncFileSession) (d : Dir) :
    (commit fm s d).1.pending = [] ∧
    (rollback fm s d).1.pending = [] ∧
    ((commit fm s d).2.2 = none → (commit fm s d).2.1 = (commit allOk s d).2.1) ∧
    ((rollback fm s d).2.2 = none → (rollback fm s d).2.1 = (rollback allOk s d).2.1) := by
  refine ⟨rfl, rfl, ?_, ?_⟩
  · intro h
    have h' : (commitLoop fm s.pendingPfx d s.pending).2 = none := h
    show (commitLoop fm s.pendingPfx d s.pending).1
        = (commitLoop allOk s.pendingPfx d s.pending).1
    rw [commitLoop_none_eq fm s.pendingPfx s.pending d h']
  · intro h
    have h' : (rollbackLoop fm s.pendingPfx d s.pending).2 = none := h
    show (rollbackLoop fm s.pendingPfx d s.pending).1
        = (rollbackLoop allOk s.pendingPfx d s.pending).1
    rw [rollbackLoop_none_eq fm s.pendingPfx s.pending d h']

/-- Witness for C8 at a concrete input. -/
theorem claim_C8_witness :
    (commit allOk ⟨"pending_", [("a", [1])]⟩ []).1.pending = [] ∧
    (rollback allOk ⟨"pending_", [("a", [1])]⟩ []).1.pending = [] ∧
    (commit allOk ⟨"pending_", [("a", [1])]⟩ []).2.1
      = (commit allOk ⟨"pending_", [("a", [1])]⟩ []).2.1 ∧
    (rollback allOk ⟨"pending_", [("a", [1])]⟩ []).2.1
      = (rollback allOk ⟨"pending_", [("a", [1])]⟩ []).2.1 := by
  have h := claim_C8 allOk ⟨"pending_", [("a", [1])]⟩ []
  exact ⟨h.1, h.2.1, h.2.2.1 (by decide), h.2.2.2 (by decide)⟩

/-- Claim C9: `delete(n)` returns `True` and removes the file (leaving
every other file unchanged) when a file named `n` exists in the storage
root, and returns `False` leaving the directory entirely unchanged when
no such file exists. -/
theorem claim_C9 (d : Dir) (n : String) :
    (existsD d n = true →
      (AsyncFileSession.delete d n).2 = true ∧
      lookupD (AsyncFileSession.delete d n).1 n = none ∧
      ∀ m, m ≠ n → lookupD (AsyncFileSession.delete d n).1 m = lookupD d m) ∧
    (existsD d n = false → AsyncFileSession.delete d n = (d, false)) := by
  constructor
  · intro hex
    unfold AsyncFileSession.delete
    rw [if_pos hex]
    exact ⟨rfl, lookupD_removeD_self _ _, fun m hm => lookupD_removeD_ne _ hm⟩
  · intro hex
    unfold AsyncFileSession.delete
    rw [if_neg (by simp [hex])]

/-- Witness for C9 at a concrete input (both branches). -/
theorem claim_C9_witness :
    (AsyncFileSession.delete [("a", [1])] "a").2 = true ∧
    lookupD (AsyncFileSession.delete [("a", [1])] "a").1 "a" = none ∧
    lookupD (AsyncFileSession.delete [("a", [1])] "a").1 "b"
      = lookupD [("a", [1])] "b" ∧
    AsyncFileSession.delete [("a", [1])] "b" = ([("a", [1])], false) := by
  have h1 := (claim_C9 [("a", [1])] "a").1 (by decide)
  have h2 := (claim_C9 [("a", [1])] "b").2 (by decide)
  exact ⟨h1.1, h1.2.1, h1.2.2 "b" (by decide), h2⟩

/-- Claim C10: the engine distinguishes staging from final files only by
name prefix: a Final Artifact whose logical name itself begins with the
reserved prefix is deleted by `recover()` and omitted by `list_files()`,
exactly as if it were a staging artifact, while `list_all_files()` returns
every entry of the storage root including staging artifacts. -/
theorem claim_C10 (pfx : String) (d : Dir) (f : String)
    (_hmem : f ∈ listdir d) (hs : startsW f pfx = true) :
    lookupD (AsyncFileSession.recover pfx d) f = none ∧
    f ∉ list_files pfx d ∧
    list_all_files d = listdir d := by
  refine ⟨?_, ?_, rfl⟩
  · rw [recover_spec, if_pos hs]
  · intro hmem'
    have h2 := (List.mem_filter.mp hmem').2
    rw [hs] at h2
    exact absurd h2 (by simp)

/-- Witness for C10 at a concrete input: a committed file whose own name
starts with the reserved prefix. -/
theorem claim_C10_witness :
    lookupD (AsyncFileSession.recover "pending_" [("pending_x", [3]), ("a", [1])])
      "pending_x" = none ∧
    "pending_x" ∉ list_files "pending_" [("pending_x", [3]), ("a", [1])] ∧
    list_all_files [("pending_x", [3]), ("a", [1])]
      = listdir [("pending_x", [3]), ("a", [1])] :=
  claim_C10 "pending_" [("pending_x", [3]), ("a", [1])] "pending_x"
    (by decide) (by decide)
